import Mathlib

/-!
Verification of the tic-tac-toe core (`src/main.rs`): board/state model,
winner detection, minimax search and best-move selection, embedded
shallowly and proved against the specification's claims.
-/

/-- The two players, `Player::X` and `Player::O`. -/
inductive Player where
  | X : Player
  | O : Player
deriving DecidableEq, Repr

/-- `Player::opponent`: get the opponent for the given player. -/
def Player.opponent : Player → Player
  | Player.X => Player.O
  | Player.O => Player.X

/-- `GameResult`: totally ordered outcome, discriminants Loss = -1, Tie = 0,
Win = 1 as in the Rust enum. -/
inductive GameResult where
  | Loss : GameResult
  | Tie : GameResult
  | Win : GameResult
deriving DecidableEq, Repr

/-- The Rust discriminant of a `GameResult` (`Loss = -1, Tie = 0, Win = 1`),
giving the derived `Ord` order `Loss < Tie < Win`. -/
def GameResult.toInt : GameResult → Int
  | GameResult.Loss => -1
  | GameResult.Tie => 0
  | GameResult.Win => 1

/-- Binary max on `GameResult` in the derived `Ord` order (used to model
`Iterator::max` as a fold). -/
def GameResult.max (a b : GameResult) : GameResult :=
  if a.toInt < b.toInt then b else a

/-- Binary min on `GameResult` in the derived `Ord` order (used to model
`Iterator::min` as a fold). -/
def GameResult.min (a b : GameResult) : GameResult :=
  if b.toInt < a.toInt then b else a

/-- `get_line_winner`: return the winner for a given line, or `none` if there
is no winner.  A line wins only when its first cell is occupied and all three
cells are equal. -/
def get_line_winner (a b c : Option Player) : Option Player :=
  if a.isSome ∧ a = b ∧ b = c then a else none

/-- `GameState`: the board (a row-major list of 9 optional cells, mirroring
`[Option<Player>; 9]`), the player to move next, the cached winner and the
designated computer player. -/
structure GameState where
  board : List (Option Player)
  next_player : Player
  winner : Option Player
  computer_player : Player
deriving DecidableEq, Repr

/-- The first of two options that is `some`, modelling the early `return` of
the winner-scanning loop in `check_winner`. -/
def firstSome (a b : Option Player) : Option Player :=
  match a with
  | some x => some x
  | none => b

/-- Cell `i` of the board (`self.board[i]`; the Rust array is always length 9
and in bounds). -/
def GameState.cell (s : GameState) (i : Nat) : Option Player :=
  s.board.getD i none

/-- `GameState::check_winner`: scan the 8 lines in the source's order
(row `i` then column `i` for `i = 0, 1, 2`, then the two diagonals) and
return the first line winner found, or `none`. -/
def GameState.check_winner (s : GameState) : Option Player :=
  firstSome (get_line_winner (s.cell 0) (s.cell 1) (s.cell 2))
    (firstSome (get_line_winner (s.cell 0) (s.cell 3) (s.cell 6))
      (firstSome (get_line_winner (s.cell 3) (s.cell 4) (s.cell 5))
        (firstSome (get_line_winner (s.cell 1) (s.cell 4) (s.cell 7))
          (firstSome (get_line_winner (s.cell 6) (s.cell 7) (s.cell 8))
            (firstSome (get_line_winner (s.cell 2) (s.cell 5) (s.cell 8))
              (firstSome (get_line_winner (s.cell 0) (s.cell 4) (s.cell 8))
                (get_line_winner (s.cell 2) (s.cell 4) (s.cell 6))))))))

/-- `GameState::open_squares`: enumerate the board and keep the indices of
the empty cells (a `Selection` is just its square index; the label is
presentational). -/
def GameState.open_squares (s : GameState) : List Nat :=
  s.board.enum.filterMap (fun p => if p.2.isNone then some p.1 else none)

/-- `GameState::new`: empty board, X to move, no winner. -/
def GameState.new (computer_player : Player) : GameState :=
  { board := [none, none, none, none, none, none, none, none, none]
    next_player := Player.X
    winner := none
    computer_player := computer_player }

/-- `GameState::apply_move`: set the square to the next player's mark, flip
the next player, recompute the cached winner.  (The Rust method mutates in
place; the embedding returns the updated state.) -/
def GameState.apply_move (s : GameState) (square : Nat) : GameState :=
  let s1 : GameState :=
    { s with
      board := s.board.set square (some s.next_player)
      next_player := s.next_player.opponent }
  { s1 with winner := s1.check_winner }

/-- `GameState::with_move`: a fresh state with the given move applied,
leaving the receiver untouched (value semantics). -/
def GameState.with_move (s : GameState) (square : Nat) : GameState :=
  s.apply_move square

/-- Number of empty cells of a board: the recursion depth bound for the
search. -/
def countNone (l : List (Option Player)) : Nat :=
  l.countP (fun c => c.isNone)

/-- The body of the Rust `minimax` function, with the recursive call
abstracted as `child`.  Base cases: a cached winner gives Win/Loss from the
computer player's perspective; an empty move list gives Tie.  Otherwise the
children (one per open square) are reduced with max when the computer is the
next player, min otherwise. -/
def minimaxBody (child : GameState → GameResult) (s : GameState) : GameResult :=
  match s.winner with
  | some winner =>
    if winner = s.computer_player then GameResult.Win else GameResult.Loss
  | none =>
    if s.open_squares.isEmpty then GameResult.Tie
    else if s.next_player = s.computer_player then
      (s.open_squares.map (fun m => child (s.with_move m))).foldl
        GameResult.max GameResult.Loss
    else
      (s.open_squares.map (fun m => child (s.with_move m))).foldl
        GameResult.min GameResult.Win

/-- The fuel-indexed search: one `minimaxBody` layer per unit of fuel.  With
zero fuel the children are evaluated by the constant `Tie`; this branch is
unreachable whenever the fuel is at least the number of open squares (see
`minimaxF_congr`). -/
def minimaxF : Nat → GameState → GameResult
  | 0, s => minimaxBody (fun _ => GameResult.Tie) s
  | f + 1, s => minimaxBody (minimaxF f) s

/-- `minimax`: evaluate a state for `state.computer_player`; the fuel
`countNone s.board` bounds the recursion depth of the Rust original. -/
def minimax (s : GameState) : GameResult :=
  minimaxF (countNone s.board) s

/-- One iteration of the loop in `get_best_computer_moves`, parametrized by
the value function `f` (instantiated with `minimax` of the child state):
a strictly better result clears the accumulated list and keeps only the new
move; an equal result appends the move; a worse result is dropped. -/
def gbStep (f : Nat → GameResult) (acc : GameResult × List Nat) (m : Nat) :
    GameResult × List Nat :=
  let move_result := f m
  if acc.1.toInt < move_result.toInt then (move_result, [m])
  else if move_result = acc.1 then (acc.1, acc.2 ++ [m])
  else acc

/-- `GameState::get_best_computer_moves`: fold the loop over the open
squares, starting from `best_so_far = Loss` and an empty move list, and
return the accumulated list of best moves. -/
def GameState.get_best_computer_moves (s : GameState) : List Nat :=
  (s.open_squares.foldl (gbStep (fun m => minimax (s.with_move m)))
    (GameResult.Loss, [])).2

/-- `GameState::get_random_computer_move`: index the best-move list with a
random draw; the draw `rng.gen_range(0..len)` is modelled by the parameter
`r`, constrained to `r < len` where the claim requires it. -/
def GameState.get_random_computer_move (s : GameState) (r : Nat) : Nat :=
  (s.get_best_computer_moves).getD r 0

/-- The best result achievable among the open squares: the max over the
minimax values of the child states (`Loss` when no square is open). -/
def bestValue (s : GameState) : GameResult :=
  (s.open_squares.map (fun m => minimax (s.with_move m))).foldl
    GameResult.max GameResult.Loss

/-- Number of occupied squares of a state. -/
def occupied_count (s : GameState) : Nat :=
  s.board.countP (fun c => c.isSome)

/-- States reachable from `GameState::new` by repeatedly applying
`apply_move` to a currently-open square. -/
inductive Reachable : GameState → Prop where
  | init (p : Player) : Reachable (GameState.new p)
  | step {s : GameState} (m : Nat) (hs : Reachable s) (hm : m ∈ s.open_squares) :
      Reachable (s.apply_move m)

/-- The 8 winning lines (3 rows, 3 columns, 2 diagonals) in the scan order
of `check_winner`. -/
def winLines : List (Nat × Nat × Nat) :=
  [(0, 1, 2), (0, 3, 6), (3, 4, 5), (1, 4, 7), (6, 7, 8), (2, 5, 8), (0, 4, 8), (2, 4, 6)]

/-- A player owns a completed line: some winning line has all three cells
occupied by that player. -/
def hasLine (s : GameState) (p : Player) : Prop :=
  ∃ t ∈ winLines, s.cell t.1 = some p ∧ s.cell t.2.1 = some p ∧ s.cell t.2.2 = some p

instance (s : GameState) (p : Player) : Decidable (hasLine s p) := by
  unfold hasLine; infer_instance

/-- Numeric code of a player (X = 1, O = 2) for the arithmetic board
encoding used by the certificate checkers. -/
def pCode : Player → Nat
  | Player.X => 1
  | Player.O => 2

/-- Numeric code of a cell (empty = 0, X = 1, O = 2). -/
def cellCode : Option Player → Nat
  | none => 0
  | some p => pCode p

/-- Numeric code of a `GameResult` (Loss = 0, Tie = 1, Win = 2); monotone in
the derived `Ord` order. -/
def rCode : GameResult → Nat
  | GameResult.Loss => 0
  | GameResult.Tie => 1
  | GameResult.Win => 2

/-- Base-3 little-endian encoding of a board into a single natural number. -/
def encodeB : List (Option Player) → Nat
  | [] => 0
  | c :: t => cellCode c + 3 * encodeB t

/-- Digit `i` of an encoded board: the code of cell `i`. -/
def dig (b i : Nat) : Nat := b / 3 ^ i % 3

/-- Arithmetic counterpart of `get_line_winner` on an encoded board. -/
def lineW (b i j k : Nat) : Nat :=
  cond ((dig b i != 0) && (dig b j == dig b i) && (dig b k == dig b i)) (dig b i) 0

/-- Arithmetic counterpart of `firstSome` on cell codes. -/
def firstNZ (a b : Nat) : Nat := cond (a == 0) b a

/-- Arithmetic counterpart of `check_winner` on an encoded board, scanning
the 8 lines in the same order. -/
def winnerN (b : Nat) : Nat :=
  firstNZ (lineW b 0 1 2)
    (firstNZ (lineW b 0 3 6)
      (firstNZ (lineW b 3 4 5)
        (firstNZ (lineW b 1 4 7)
          (firstNZ (lineW b 6 7 8)
            (firstNZ (lineW b 2 5 8)
              (firstNZ (lineW b 0 4 8) (lineW b 2 4 6)))))))

/-- Board-full test on an encoded board: all nine digits are nonzero. -/
def fullB (b : Nat) : Bool :=
  (dig b 0 != 0) && (dig b 1 != 0) && (dig b 2 != 0) && (dig b 3 != 0) && (dig b 4 != 0) &&
    (dig b 5 != 0) && (dig b 6 != 0) && (dig b 7 != 0) && (dig b 8 != 0)

/-- Body of the lower-bound checker, with the recursive call abstracted:
at a decided position compare with `r`; otherwise at the computer's turn
some open square must check, at the opponent's turn every open square must
check. -/
def lbBody (rec : Nat → Nat → Nat → Nat → Bool) (b next comp r : Nat) : Bool :=
  let w := winnerN b
  cond (w != 0) (Nat.ble r (cond (w == comp) 2 0))
    (cond (fullB b) (Nat.ble r 1)
      (let child := fun (i : Nat) => rec (b + next * 3 ^ i) (3 - next) comp r
       let opn := fun (i : Nat) => dig b i == 0
       cond (next == comp)
         ((opn 0 && child 0) || (opn 1 && child 1) || (opn 2 && child 2) ||
           (opn 3 && child 3) || (opn 4 && child 4) || (opn 5 && child 5) ||
           (opn 6 && child 6) || (opn 7 && child 7) || (opn 8 && child 8))
         ((!opn 0 || child 0) && (!opn 1 || child 1) && (!opn 2 || child 2) &&
           (!opn 3 || child 3) && (!opn 4 || child 4) && (!opn 5 || child 5) &&
           (!opn 6 || child 6) && (!opn 7 || child 7) && (!opn 8 || child 8))))

/-- Unpacking step: the board and the next player are packed into the single
number `b + next * 3 ^ 9` so that one `match` keeps both as evaluated
numeric literals during kernel reduction. -/
def lbForce (rec : Nat → Nat → Nat → Nat → Bool) (bn comp r : Nat) : Bool :=
  match bn with
  | 0 => false
  | k + 1 => lbBody rec ((k + 1) % 3 ^ 9) ((k + 1) / 3 ^ 9) comp r

/-- Certified lower-bound checker: `lbCheckN fuel b next comp r = true`
implies (soundness, proved below) that minimax evaluation of the decoded
state is at least the result coded by `r`. -/
def lbCheckN : Nat → Nat → Nat → Nat → Nat → Bool
  | 0, _, _, _, _ => false
  | fuel + 1, b, next, comp, r => lbForce (lbCheckN fuel) (b + next * 3 ^ 9) comp r

/-- Body of the upper-bound checker, dual to `lbBody`. -/
def ubBody (rec : Nat → Nat → Nat → Nat → Bool) (b next comp r : Nat) : Bool :=
  let w := winnerN b
  cond (w != 0) (Nat.ble (cond (w == comp) 2 0) r)
    (cond (fullB b) (Nat.ble 1 r)
      (let child := fun (i : Nat) => rec (b + next * 3 ^ i) (3 - next) comp r
       let opn := fun (i : Nat) => dig b i == 0
       cond (next == comp)
         ((!opn 0 || child 0) && (!opn 1 || child 1) && (!opn 2 || child 2) &&
           (!opn 3 || child 3) && (!opn 4 || child 4) && (!opn 5 || child 5) &&
           (!opn 6 || child 6) && (!opn 7 || child 7) && (!opn 8 || child 8))
         ((opn 0 && child 0) || (opn 1 && child 1) || (opn 2 && child 2) ||
           (opn 3 && child 3) || (opn 4 && child 4) || (opn 5 && child 5) ||
           (opn 6 && child 6) || (opn 7 && child 7) || (opn 8 && child 8))))

/-- Unpacking step for the upper-bound checker, as in `lbForce`. -/
def ubForce (rec : Nat → Nat → Nat → Nat → Bool) (bn comp r : Nat) : Bool :=
  match bn with
  | 0 => false
  | k + 1 => ubBody rec ((k + 1) % 3 ^ 9) ((k + 1) / 3 ^ 9) comp r

/-- Certified upper-bound checker: `true` implies the decoded state
evaluates to at most the result coded by `r`. -/
def ubCheckN : Nat → Nat → Nat → Nat → Nat → Bool
  | 0, _, _, _, _ => false
  | fuel + 1, b, next, comp, r => ubForce (ubCheckN fuel) (b + next * 3 ^ 9) comp r

instance : Fintype Player where
  elems := {Player.X, Player.O}
  complete := fun x => by cases x <;> decide

instance : Fintype GameResult where
  elems := {GameResult.Loss, GameResult.Tie, GameResult.Win}
  complete := fun x => by cases x <;> decide

/-- `toInt` is injective: equal discriminants mean equal results. -/
theorem GameResult.toInt_inj : ∀ a b : GameResult, a.toInt = b.toInt → a = b := by decide

/-- The binary max is one of its two arguments. -/
theorem GameResult.max_choice : ∀ a b : GameResult, a.max b = a ∨ a.max b = b := by decide

/-- Both arguments bound the binary max from below. -/
theorem GameResult.le_max : ∀ a b : GameResult,
    a.toInt ≤ (a.max b).toInt ∧ b.toInt ≤ (a.max b).toInt := by decide

/-- The binary min is one of its two arguments. -/
theorem GameResult.min_choice : ∀ a b : GameResult, a.min b = a ∨ a.min b = b := by decide

/-- Both arguments bound the binary min from above. -/
theorem GameResult.min_le : ∀ a b : GameResult,
    (a.min b).toInt ≤ a.toInt ∧ (a.min b).toInt ≤ b.toInt := by decide

/-- `Loss` is the bottom and `Win` the top of the result order. -/
theorem GameResult.bot_top : ∀ a : GameResult,
    GameResult.Loss.toInt ≤ a.toInt ∧ a.toInt ≤ GameResult.Win.toInt := by decide

/-- The seed bounds a max-fold from below. -/
theorem le_foldl_max : ∀ (l : List GameResult) (a : GameResult),
    a.toInt ≤ (l.foldl GameResult.max a).toInt
  | [], a => le_refl _
  | b :: t, a =>
    le_trans (GameResult.le_max a b).1 (le_foldl_max t (GameResult.max a b))

/-- Every member bounds a max-fold from below. -/
theorem mem_le_foldl_max {x : GameResult} : ∀ {l : List GameResult} (a : GameResult),
    x ∈ l → x.toInt ≤ (l.foldl GameResult.max a).toInt := by
  intro l
  induction l with
  | nil => intro a h; cases h
  | cons b t ih =>
    intro a h
    rcases List.mem_cons.mp h with h | h
    · subst h
      exact le_trans (GameResult.le_max a x).2 (le_foldl_max t _)
    · exact ih _ h

/-- A max-fold is bounded above by any common upper bound of the seed and the
members. -/
theorem foldl_max_le {r : GameResult} : ∀ (l : List GameResult) (a : GameResult),
    a.toInt ≤ r.toInt → (∀ x ∈ l, x.toInt ≤ r.toInt) →
    (l.foldl GameResult.max a).toInt ≤ r.toInt := by
  intro l
  induction l with
  | nil => intro a ha _; exact ha
  | cons b t ih =>
    intro a ha h
    refine ih (GameResult.max a b) ?_ (fun x hx => h x (List.mem_cons_of_mem b hx))
    rcases GameResult.max_choice a b with hm | hm
    · rw [hm]; exact ha
    · rw [hm]; exact h b (List.mem_cons_self b t)

/-- A min-fold is bounded below by any common lower bound of the seed and the
members. -/
theorem le_foldl_min {r : GameResult} : ∀ (l : List GameResult) (a : GameResult),
    r.toInt ≤ a.toInt → (∀ x ∈ l, r.toInt ≤ x.toInt) →
    r.toInt ≤ (l.foldl GameResult.min a).toInt := by
  intro l
  induction l with
  | nil => intro a ha _; exact ha
  | cons b t ih =>
    intro a ha h
    refine ih (GameResult.min a b) ?_ (fun x hx => h x (List.mem_cons_of_mem b hx))
    rcases GameResult.min_choice a b with hm | hm
    · rw [hm]; exact ha
    · rw [hm]; exact h b (List.mem_cons_self b t)

/-- The seed bounds a min-fold from above. -/
theorem foldl_min_le : ∀ (l : List GameResult) (a : GameResult),
    (l.foldl GameResult.min a).toInt ≤ a.toInt
  | [], a => le_refl _
  | b :: t, a =>
    le_trans (foldl_min_le t (GameResult.min a b)) (GameResult.min_le a b).1

/-- Every member bounds a min-fold from above. -/
theorem foldl_min_le_mem {x : GameResult} : ∀ {l : List GameResult} (a : GameResult),
    x ∈ l → (l.foldl GameResult.min a).toInt ≤ x.toInt := by
  intro l
  induction l with
  | nil => intro a h; cases h
  | cons b t ih =>
    intro a h
    rcases List.mem_cons.mp h with h | h
    · subst h
      exact le_trans (foldl_min_le t _) (GameResult.min_le a x).2
    · exact ih _ h

/-- Membership in `open_squares` is exactly "the cell at that index exists
and is empty". -/
theorem mem_open_squares (s : GameState) (i : Nat) :
    i ∈ s.open_squares ↔ s.board[i]? = some none := by
  unfold GameState.open_squares
  rw [List.mem_filterMap]
  constructor
  · rintro ⟨⟨j, c⟩, hmem, hf⟩
    dsimp at hf
    rcases c with _ | p
    · simp only [Option.isNone_none, if_pos] at hf
      cases hf
      exact (List.mk_mem_enum_iff_getElem?).mp hmem
    · simp [Option.isNone] at hf
  · intro h
    exact ⟨(i, none), (List.mk_mem_enum_iff_getElem?).mpr h, rfl⟩

/-- The open-square indices are listed in strictly increasing order. -/
theorem pairwise_open_squares (s : GameState) : s.open_squares.Pairwise (· < ·) := by
  have henum : List.Pairwise (fun a b : Nat × Option Player => a.1 < b.1) s.board.enum := by
    show List.Pairwise (fun a b : Nat × Option Player => a.1 < b.1) (s.board.enumFrom 0)
    generalize 0 = n
    induction s.board generalizing n with
    | nil => exact List.Pairwise.nil
    | cons c t ih =>
      rw [List.enumFrom_cons]
      refine List.Pairwise.cons ?_ (ih (n + 1))
      intro x hx
      have := (List.mk_mem_enumFrom_iff_le_and_getElem?_sub (x := x.2)).mp (by simpa using hx)
      omega
  refine henum.filterMap _ ?_
  intro a b hab x hx y hy
  rw [Option.mem_def] at hx hy
  split at hx
  · cases hx
    split at hy
    · cases hy; exact hab
    · cases hy
  · cases hx

/-- `open_squares` has as many entries as the board has empty cells. -/
theorem length_open_squares (s : GameState) :
    s.open_squares.length = countNone s.board := by
  unfold GameState.open_squares
  show (List.filterMap _ (s.board.enumFrom 0)).length = _
  generalize 0 = n
  induction s.board generalizing n with
  | nil => rfl
  | cons c t ih =>
    rw [List.enumFrom_cons]
    rcases c with _ | p
    · show (n :: List.filterMap _ (t.enumFrom (n + 1))).length = countNone (none :: t)
      rw [List.length_cons, ih (n + 1)]
      simp [countNone, List.countP_cons]
    · show (List.filterMap _ (t.enumFrom (n + 1))).length = countNone (some p :: t)
      rw [ih (n + 1)]
      simp [countNone, List.countP_cons]

/-- Setting an empty cell removes exactly one empty cell. -/
theorem countNone_set : ∀ (l : List (Option Player)) (i : Nat) (p : Player),
    l[i]? = some none → countNone (l.set i (some p)) + 1 = countNone l
  | [], i, p, h => by simp at h
  | c :: t, 0, p, h => by
    simp only [List.getElem?_cons_zero, Option.some.injEq] at h
    subst h
    simp [countNone, List.countP_cons]
  | c :: t, i + 1, p, h => by
    simp only [List.getElem?_cons_succ] at h
    show countNone (c :: t.set i (some p)) + 1 = countNone (c :: t)
    have := countNone_set t i p h
    simp only [countNone, List.countP_cons] at *
    omega

/-- Setting an empty cell adds one to any cell count whose predicate rejects
empty cells. -/
theorem countP_set_of_none {q : Option Player → Bool} (hq : q none = false) :
    ∀ (l : List (Option Player)) (i : Nat) (p : Player), l[i]? = some none →
      (l.set i (some p)).countP q = l.countP q + (if q (some p) then 1 else 0)
  | [], i, p, h => by simp at h
  | c :: t, 0, p, h => by
    simp only [List.getElem?_cons_zero, Option.some.injEq] at h
    subst h
    simp [List.countP_cons, hq]
  | c :: t, i + 1, p, h => by
    simp only [List.getElem?_cons_succ] at h
    show (c :: t.set i (some p)).countP q = (c :: t).countP q + _
    have := countP_set_of_none hq t i p h
    simp only [List.countP_cons] at *
    omega

/-- The board of the state after a move: the chosen square is overwritten
with the mover's mark. -/
theorem with_move_board (s : GameState) (m : Nat) :
    (s.with_move m).board = s.board.set m (some s.next_player) := rfl

/-- The next player after a move is the mover's opponent. -/
theorem with_move_next (s : GameState) (m : Nat) :
    (s.with_move m).next_player = s.next_player.opponent := rfl

/-- A move does not change the designated computer player. -/
theorem with_move_comp (s : GameState) (m : Nat) :
    (s.with_move m).computer_player = s.computer_player := rfl

/-- After a move the cached winner is the recomputed winner of the new
board. -/
theorem with_move_winner (s : GameState) (m : Nat) :
    (s.with_move m).winner = (s.with_move m).check_winner := rfl

/-- A move on an open square decreases the number of empty cells by one. -/
theorem countNone_with_move (s : GameState) (m : Nat) (h : m ∈ s.open_squares) :
    countNone (s.with_move m).board + 1 = countNone s.board := by
  rw [with_move_board]
  exact countNone_set s.board m s.next_player ((mem_open_squares s m).mp h)

/-- A state has an open square exactly when some cell is empty. -/
theorem open_squares_eq_nil_iff (s : GameState) :
    s.open_squares = [] ↔ countNone s.board = 0 := by
  rw [← length_open_squares, List.length_eq_zero]

/-- Two child evaluators that agree on the children of a state give the
same body value. -/
theorem minimaxBody_congr (s : GameState) (c1 c2 : GameState → GameResult)
    (h : ∀ m ∈ s.open_squares, c1 (s.with_move m) = c2 (s.with_move m)) :
    minimaxBody c1 s = minimaxBody c2 s := by
  unfold minimaxBody
  have hm : s.open_squares.map (fun m => c1 (s.with_move m))
      = s.open_squares.map (fun m => c2 (s.with_move m)) := List.map_congr_left h
  rw [hm]

/-- Any two fuels at least the number of open squares evaluate a state
identically: the fuel is an artifact of the embedding, not of the search. -/
theorem minimaxF_congr : ∀ (f1 f2 : Nat) (s : GameState),
    countNone s.board ≤ f1 → countNone s.board ≤ f2 → minimaxF f1 s = minimaxF f2 s := by
  intro f1
  induction f1 with
  | zero =>
    intro f2 s h1 _
    have ho : s.open_squares = [] := (open_squares_eq_nil_iff s).mpr (by omega)
    cases f2 with
    | zero => rfl
    | succ k =>
      show minimaxBody _ s = minimaxBody _ s
      exact minimaxBody_congr s _ _ (fun m hm => by rw [ho] at hm; cases hm)
  | succ f1 ih =>
    intro f2 s h1 h2
    by_cases ho : s.open_squares = []
    · have hz : countNone s.board = 0 := (open_squares_eq_nil_iff s).mp ho
      cases f2 with
      | zero =>
        show minimaxBody _ s = minimaxBody _ s
        exact minimaxBody_congr s _ _ (fun m hm => by rw [ho] at hm; cases hm)
      | succ k =>
        show minimaxBody _ s = minimaxBody _ s
        exact minimaxBody_congr s _ _ (fun m hm => by rw [ho] at hm; cases hm)
    · have hpos : 0 < countNone s.board := by
        have hl := length_open_squares s
        have := List.length_pos.mpr ho
        omega
      obtain ⟨k, rfl⟩ : ∃ k, f2 = k + 1 := ⟨f2 - 1, by omega⟩
      show minimaxBody _ s = minimaxBody _ s
      refine minimaxBody_congr s _ _ (fun m hm => ?_)
      have hc := countNone_with_move s m hm
      exact ih k (s.with_move m) (by omega) (by omega)

/-- The defining equation of the search: `minimax` satisfies one unfolding
of the Rust body with itself as the child evaluator. -/
theorem minimax_eq_body (s : GameState) : minimax s = minimaxBody minimax s := by
  rw [minimax]
  cases hc : countNone s.board with
  | zero =>
    have ho : s.open_squares = [] := (open_squares_eq_nil_iff s).mpr hc
    show minimaxBody _ s = minimaxBody _ s
    exact minimaxBody_congr s _ _ (fun m hm => by rw [ho] at hm; cases hm)
  | succ k =>
    show minimaxBody _ s = minimaxBody _ s
    refine minimaxBody_congr s _ _ (fun m hm => ?_)
    have hcm := countNone_with_move s m hm
    rw [minimax]
    exact minimaxF_congr k _ _ (by omega) (le_refl _)

/-- Base case of the search: a state with a cached winner evaluates to `Win`
exactly when the winner is the computer player, else `Loss`. -/
theorem minimax_winner (s : GameState) (w : Player) (h : s.winner = some w) :
    minimax s = if w = s.computer_player then GameResult.Win else GameResult.Loss := by
  rw [minimax_eq_body, minimaxBody, h]

/-- Base case of the search: no winner and no open squares is a tie. -/
theorem minimax_tie (s : GameState) (hw : s.winner = none) (ho : s.open_squares = []) :
    minimax s = GameResult.Tie := by
  rw [minimax_eq_body, minimaxBody, hw]
  simp [ho]

/-- Recursive case of the search: with no winner and at least one open
square, the value is the max of the children when the computer moves next
and the min otherwise. -/
theorem minimax_step (s : GameState) (hw : s.winner = none) (ho : s.open_squares ≠ []) :
    minimax s =
      if s.next_player = s.computer_player then
        (s.open_squares.map (fun m => minimax (s.with_move m))).foldl
          GameResult.max GameResult.Loss
      else
        (s.open_squares.map (fun m => minimax (s.with_move m))).foldl
          GameResult.min GameResult.Win := by
  rw [minimax_eq_body, minimaxBody, hw]
  simp only [List.isEmpty_eq_false.mpr ho]
  simp

/-- Cell codes are base-3 digits. -/
theorem cellCode_lt : ∀ c : Option Player, cellCode c < 3 := by decide

/-- A cell code is zero exactly for the empty cell. -/
theorem cellCode_eq_zero : ∀ c : Option Player, cellCode c = 0 ↔ c = none := by decide

/-- A nonzero cell code means an occupied cell. -/
theorem cellCode_bne_zero : ∀ c : Option Player, (cellCode c != 0) = c.isSome := by decide

/-- Player codes are positive. -/
theorem pCode_pos : ∀ p : Player, 1 ≤ pCode p := by decide

/-- Flipping the player corresponds to subtracting the code from 3. -/
theorem pCode_opponent : ∀ p : Player, pCode p.opponent = 3 - pCode p := by decide

/-- Comparison of player codes decides equality of the players. -/
theorem cond_pCode (p q : Player) (A B : Bool) :
    cond (pCode p == pCode q) A B = if p = q then A else B := by
  cases p <;> cases q <;> simp [pCode]

/-- `Nat.ble` on result codes is the order on discriminants. -/
theorem ble_rCode_le : ∀ a b : GameResult,
    Nat.ble (rCode a) (rCode b) = true ↔ a.toInt ≤ b.toInt := by decide

/-- The terminal Win/Loss comparison value of the checkers is the code of
the result `minimax` returns at a decided state. -/
theorem winLoss_code : ∀ w c : Player,
    cond (pCode w == pCode c) 2 0
      = rCode (if w = c then GameResult.Win else GameResult.Loss) := by decide

/-- `Nat.ble _ 1` on a result code is the comparison with `Tie`. -/
theorem ble_tie : ∀ a : GameResult,
    Nat.ble (rCode a) 1 = true ↔ a.toInt ≤ GameResult.Tie.toInt := by decide

/-- Dual form of `ble_tie`. -/
theorem tie_ble : ∀ a : GameResult,
    Nat.ble 1 (rCode a) = true ↔ GameResult.Tie.toInt ≤ a.toInt := by decide

/-- Occupied player codes are nonzero. -/
theorem pCode_bne_zero : ∀ w : Player, (cellCode (some w) != 0) = true := by decide

/-- An encoded board of length `n` is below `3 ^ n`. -/
theorem encodeB_lt : ∀ l : List (Option Player), encodeB l < 3 ^ l.length
  | [] => by simp [encodeB]
  | c :: t => by
    have ht := encodeB_lt t
    have hc := cellCode_lt c
    have : (3 : Nat) ^ (c :: t).length = 3 ^ t.length * 3 := by
      rw [List.length_cons, Nat.pow_succ]
    rw [this, encodeB]
    omega

/-- Digit `i` of an encoded board is the code of cell `i`. -/
theorem dig_encodeB : ∀ (l : List (Option Player)) (i : Nat),
    dig (encodeB l) i = cellCode (l.getD i none)
  | [], i => by simp [encodeB, dig, cellCode]
  | c :: t, 0 => by
    rw [encodeB, dig, pow_zero, Nat.div_one, Nat.add_mul_mod_self_left,
      List.getD_cons_zero]
    exact Nat.mod_eq_of_lt (cellCode_lt c)
  | c :: t, i + 1 => by
    have ih := dig_encodeB t i
    rw [encodeB, dig, List.getD_cons_succ, ← ih, dig]
    have h3 : (3 : Nat) ^ (i + 1) = 3 * 3 ^ i := by rw [Nat.pow_succ]; ring
    rw [h3, ← Nat.div_div_eq_div_mul,
      Nat.add_mul_div_left _ _ (by norm_num : (0 : Nat) < 3),
      Nat.div_eq_of_lt (cellCode_lt c), Nat.zero_add]

/-- Setting an empty cell adds the mover's code at the corresponding
power of 3. -/
theorem encodeB_set : ∀ (l : List (Option Player)) (i : Nat) (p : Player),
    l[i]? = some none → encodeB (l.set i (some p)) = encodeB l + pCode p * 3 ^ i
  | [], i, p, h => by simp at h
  | c :: t, 0, p, h => by
    simp only [List.getElem?_cons_zero, Option.some.injEq] at h
    subst h
    show encodeB (some p :: t) = encodeB (none :: t) + pCode p * 3 ^ 0
    rw [encodeB, encodeB, pow_zero]
    show pCode p + 3 * encodeB t = 0 + 3 * encodeB t + pCode p * 1
    ring
  | c :: t, i + 1, p, h => by
    simp only [List.getElem?_cons_succ] at h
    show encodeB (c :: t.set i (some p)) = encodeB (c :: t) + pCode p * 3 ^ (i + 1)
    rw [encodeB, encodeB, encodeB_set t i p h, Nat.pow_succ]
    ring

/-- The arithmetic line check agrees with `get_line_winner` on cell codes. -/
theorem lineW_cell : ∀ x y z : Option Player,
    cond ((cellCode x != 0) && (cellCode y == cellCode x) && (cellCode z == cellCode x))
      (cellCode x) 0 = cellCode (get_line_winner x y z) := by decide

/-- The arithmetic first-nonzero agrees with `firstSome` on cell codes. -/
theorem firstNZ_cell : ∀ u v : Option Player,
    firstNZ (cellCode u) (cellCode v) = cellCode (firstSome u v) := by decide

/-- The arithmetic line check on an encoded board computes the line winner
of the decoded cells. -/
theorem lineW_encode (l : List (Option Player)) (i j k : Nat) :
    lineW (encodeB l) i j k
      = cellCode (get_line_winner (l.getD i none) (l.getD j none) (l.getD k none)) := by
  rw [lineW, dig_encodeB, dig_encodeB, dig_encodeB]
  exact lineW_cell _ _ _

/-- The arithmetic winner scan on the encoded board computes the code of
`check_winner`. -/
theorem winnerN_encode (s : GameState) :
    winnerN (encodeB s.board) = cellCode s.check_winner := by
  rw [winnerN, GameState.check_winner]
  simp only [GameState.cell, lineW_encode, firstNZ_cell]

/-- For an in-bounds index, "the optional lookup is an empty cell" and "the
defaulted lookup is empty" agree. -/
theorem getElem?_none_iff_getD (l : List (Option Player)) (i : Nat) (h : i < l.length) :
    l[i]? = some none ↔ l.getD i none = none := by
  rw [List.getElem?_eq_getElem h, List.getD_eq_getElem?_getD, List.getElem?_eq_getElem h]
  simp

/-- The full-board test on the encoded board decides emptiness of
`open_squares` (for the 9-cell boards of the game). -/
theorem fullB_encode (s : GameState) (h9 : s.board.length = 9) :
    fullB (encodeB s.board) = true ↔ s.open_squares = [] := by
  rw [open_squares_eq_nil_iff]
  unfold fullB
  simp only [dig_encodeB, cellCode_bne_zero, Bool.and_eq_true]
  constructor
  · rintro ⟨⟨⟨⟨⟨⟨⟨⟨h0, h1⟩, h2⟩, h3⟩, h4⟩, h5⟩, h6⟩, h7⟩, h8⟩
    rw [countNone, List.countP_eq_zero]
    intro a ha
    obtain ⟨i, hi⟩ := List.getElem?_of_mem ha
    have hilen : i < s.board.length := by
      by_contra hge
      rw [List.getElem?_eq_none (by omega)] at hi
      cases hi
    have hgd : s.board.getD i none = a := by
      rw [List.getD_eq_getElem?_getD, hi]
      rfl
    have hi9 : i < 9 := by omega
    interval_cases i <;> rw [hgd] at * <;> simp_all [Option.isSome_iff_ne_none]
  · intro hc
    have hall : ∀ i, i < 9 → (s.board.getD i none).isSome = true := by
      intro i hlt
      have hilen : i < s.board.length := by omega
      have hmem : s.board.getD i none ∈ s.board := by
        rw [List.getD_eq_getElem?_getD, List.getElem?_eq_getElem hilen]
        exact List.getElem_mem hilen
      have hnot := (List.countP_eq_zero.mp hc) _ hmem
      rcases hgd : s.board.getD i none with _ | p
      · rw [hgd] at hnot; simp at hnot
      · rfl
    exact ⟨⟨⟨⟨⟨⟨⟨⟨hall 0 (by norm_num), hall 1 (by norm_num)⟩, hall 2 (by norm_num)⟩,
      hall 3 (by norm_num)⟩, hall 4 (by norm_num)⟩, hall 5 (by norm_num)⟩,
      hall 6 (by norm_num)⟩, hall 7 (by norm_num)⟩, hall 8 (by norm_num)⟩

/-- Unpacking the packed scrutinee of `lbForce` recovers the body applied to
board and next player. -/
theorem lbForce_unpack (rec : Nat → Nat → Nat → Nat → Bool) (b next comp r : Nat)
    (hb : b < 3 ^ 9) (hn : 1 ≤ next) :
    lbForce rec (b + next * 3 ^ 9) comp r = lbBody rec b next comp r := by
  obtain ⟨k, hk⟩ : ∃ k, b + next * 3 ^ 9 = k + 1 :=
    ⟨b + next * 3 ^ 9 - 1, by
      have hp : (3 : Nat) ^ 9 = 19683 := by norm_num
      omega⟩
  rw [hk]
  show lbBody rec ((k + 1) % 3 ^ 9) ((k + 1) / 3 ^ 9) comp r = lbBody rec b next comp r
  rw [← hk]
  have hmod : (b + next * 3 ^ 9) % 3 ^ 9 = b := by
    rw [Nat.add_mul_mod_self_right]
    exact Nat.mod_eq_of_lt hb
  have hdiv : (b + next * 3 ^ 9) / 3 ^ 9 = next := by
    rw [Nat.add_mul_div_right _ _ (by norm_num : (0 : Nat) < 3 ^ 9),
      Nat.div_eq_of_lt hb, Nat.zero_add]
  rw [hmod, hdiv]

/-- Unpacking the packed scrutinee of `ubForce`. -/
theorem ubForce_unpack (rec : Nat → Nat → Nat → Nat → Bool) (b next comp r : Nat)
    (hb : b < 3 ^ 9) (hn : 1 ≤ next) :
    ubForce rec (b + next * 3 ^ 9) comp r = ubBody rec b next comp r := by
  obtain ⟨k, hk⟩ : ∃ k, b + next * 3 ^ 9 = k + 1 :=
    ⟨b + next * 3 ^ 9 - 1, by
      have hp : (3 : Nat) ^ 9 = 19683 := by norm_num
      omega⟩
  rw [hk]
  show ubBody rec ((k + 1) % 3 ^ 9) ((k + 1) / 3 ^ 9) comp r = ubBody rec b next comp r
  rw [← hk]
  have hmod : (b + next * 3 ^ 9) % 3 ^ 9 = b := by
    rw [Nat.add_mul_mod_self_right]
    exact Nat.mod_eq_of_lt hb
  have hdiv : (b + next * 3 ^ 9) / 3 ^ 9 = next := by
    rw [Nat.add_mul_div_right _ _ (by norm_num : (0 : Nat) < 3 ^ 9),
      Nat.div_eq_of_lt hb, Nat.zero_add]
  rw [hmod, hdiv]

/-- An open square of a 9-cell board is one of the squares 0 to 8. -/
theorem open_lt (s : GameState) (i : Nat) (h9 : s.board.length = 9)
    (hmem : i ∈ s.open_squares) : i < 9 := by
  have hg := (mem_open_squares s i).mp hmem
  by_contra hge
  rw [List.getElem?_eq_none (by omega)] at hg
  cases hg

/-- For squares 0 to 8 of a 9-cell board, a zero digit of the encoded board
is exactly membership in `open_squares`. -/
theorem open_dig (s : GameState) (i : Nat) (h9 : s.board.length = 9) (hi : i < 9) :
    ((dig (encodeB s.board) i == 0) = true) ↔ i ∈ s.open_squares := by
  rw [dig_encodeB, mem_open_squares, getElem?_none_iff_getD s.board i (by omega)]
  constructor
  · intro h
    simp only [beq_iff_eq] at h
    exact (cellCode_eq_zero _).mp h
  · intro h
    rw [h]
    rfl

/-- The encoded data of the child state reached by a move on an open
square. -/
theorem with_move_encode (s : GameState) (i : Nat) (h9 : s.board.length = 9)
    (hmem : i ∈ s.open_squares) :
    encodeB (s.with_move i).board = encodeB s.board + pCode s.next_player * 3 ^ i ∧
    pCode (s.with_move i).next_player = 3 - pCode s.next_player ∧
    (s.with_move i).computer_player = s.computer_player ∧
    (s.with_move i).board.length = 9 ∧
    (s.with_move i).winner = (s.with_move i).check_winner := by
  have hget := (mem_open_squares s i).mp hmem
  refine ⟨?_, ?_, with_move_comp s i, ?_, with_move_winner s i⟩
  · rw [with_move_board]
    exact encodeB_set _ _ _ hget
  · rw [with_move_next, pCode_opponent]
  · rw [with_move_board, List.length_set, h9]

/-- Soundness of the lower-bound checker: a `true` verdict on the encoded
state means the minimax value is at least the claimed result. -/
theorem lbCheckN_sound : ∀ (fuel : Nat) (s : GameState) (r : GameResult),
    s.board.length = 9 → s.winner = s.check_winner →
    lbCheckN fuel (encodeB s.board) (pCode s.next_player) (pCode s.computer_player)
      (rCode r) = true →
    r.toInt ≤ (minimax s).toInt := by
  intro fuel
  induction fuel with
  | zero =>
    intro s r _ _ h
    simp only [lbCheckN] at h
    exact absurd h (by decide)
  | succ fuel ih =>
    intro s r h9 hcache h
    simp only [lbCheckN] at h
    have hb : encodeB s.board < 3 ^ 9 := h9 ▸ encodeB_lt s.board
    rw [lbForce_unpack _ _ _ _ _ hb (pCode_pos s.next_player)] at h
    simp only [lbBody] at h
    rw [winnerN_encode] at h
    rcases hw : s.check_winner with _ | w
    · rw [hw] at h
      simp only [cellCode] at h
      have hzz : ((0 : Nat) != 0) = false := rfl
      rw [hzz, Bool.cond_false] at h
      by_cases ho : s.open_squares = []
      · rw [((fullB_encode s h9).mpr ho : fullB (encodeB s.board) = true),
          Bool.cond_true] at h
        rw [minimax_tie s (hcache.trans hw) ho]
        exact (ble_tie r).mp h
      · have hfb : fullB (encodeB s.board) = false := by
          cases hfb2 : fullB (encodeB s.board)
          · rfl
          · exact absurd ((fullB_encode s h9).mp hfb2) ho
        rw [hfb, Bool.cond_false, cond_pCode] at h
        rw [minimax_step s (hcache.trans hw) ho]
        have hstep : ∀ i, i ∈ s.open_squares →
            lbCheckN fuel (encodeB s.board + pCode s.next_player * 3 ^ i)
              (3 - pCode s.next_player) (pCode s.computer_player) (rCode r) = true →
            r.toInt ≤ (minimax (s.with_move i)).toInt := by
          intro i hmem hc
          obtain ⟨he, hn, hcp, h9c, hcc⟩ := with_move_encode s i h9 hmem
          refine ih (s.with_move i) r h9c hcc ?_
          rw [he, hn, hcp]
          exact hc
        by_cases hnc : s.next_player = s.computer_player
        · rw [if_pos hnc] at h ⊢
          simp only [Bool.or_eq_true, Bool.and_eq_true] at h
          have hone : ∀ i, ((dig (encodeB s.board) i == 0) = true) →
              lbCheckN fuel (encodeB s.board + pCode s.next_player * 3 ^ i)
                (3 - pCode s.next_player) (pCode s.computer_player) (rCode r) = true →
              i < 9 →
              r.toInt ≤ ((s.open_squares.map fun m => minimax (s.with_move m)).foldl
                GameResult.max GameResult.Loss).toInt := by
            intro i hdig hc hi
            have hmem := (open_dig s i h9 hi).mp hdig
            exact le_trans (hstep i hmem hc)
              (mem_le_foldl_max _ (List.mem_map_of_mem _ hmem))
          rcases h with
            ((((((((⟨hd, hc⟩ | ⟨hd, hc⟩) | ⟨hd, hc⟩) | ⟨hd, hc⟩) | ⟨hd, hc⟩) |
              ⟨hd, hc⟩) | ⟨hd, hc⟩) | ⟨hd, hc⟩) | ⟨hd, hc⟩)
          all_goals exact hone _ hd hc (by norm_num)
        · rw [if_neg hnc] at h ⊢
          simp only [Bool.and_eq_true] at h
          obtain ⟨⟨⟨⟨⟨⟨⟨⟨h0, h1⟩, h2⟩, h3⟩, h4⟩, h5⟩, h6⟩, h7⟩, h8⟩ := h
          refine le_foldl_min _ _ (GameResult.bot_top r).2 ?_
          intro x hx
          obtain ⟨i, hmi, rfl⟩ := List.mem_map.mp hx
          have hi9 : i < 9 := open_lt s i h9 hmi
          have hdig := (open_dig s i h9 hi9).mpr hmi
          have hget : ∀ j, ((!(dig (encodeB s.board) j == 0)) ||
              lbCheckN fuel (encodeB s.board + pCode s.next_player * 3 ^ j)
                (3 - pCode s.next_player) (pCode s.computer_player) (rCode r)) = true →
              j = i →
              r.toInt ≤ (minimax (s.with_move i)).toInt := by
            intro j hcond hj
            subst hj
            rw [Bool.or_eq_true] at hcond
            rcases hcond with hno | hc
            · rw [hdig] at hno
              cases hno
            · exact hstep j hmi hc
          interval_cases i
          exacts [hget 0 h0 rfl, hget 1 h1 rfl, hget 2 h2 rfl, hget 3 h3 rfl,
            hget 4 h4 rfl, hget 5 h5 rfl, hget 6 h6 rfl, hget 7 h7 rfl, hget 8 h8 rfl]
    · rw [hw] at h
      rw [pCode_bne_zero w, Bool.cond_true] at h
      have hcs : cellCode (some w) = pCode w := rfl
      rw [hcs, winLoss_code] at h
      rw [minimax_winner s w (hcache.trans hw)]
      exact (ble_rCode_le _ _).mp h

/-- Soundness of the upper-bound checker: a `true` verdict on the encoded
state means the minimax value is at most the claimed result. -/
theorem ubCheckN_sound : ∀ (fuel : Nat) (s : GameState) (r : GameResult),
    s.board.length = 9 → s.winner = s.check_winner →
    ubCheckN fuel (encodeB s.board) (pCode s.next_player) (pCode s.computer_player)
      (rCode r) = true →
    (minimax s).toInt ≤ r.toInt := by
  intro fuel
  induction fuel with
  | zero =>
    intro s r _ _ h
    simp only [ubCheckN] at h
    exact absurd h (by decide)
  | succ fuel ih =>
    intro s r h9 hcache h
    simp only [ubCheckN] at h
    have hb : encodeB s.board < 3 ^ 9 := h9 ▸ encodeB_lt s.board
    rw [ubForce_unpack _ _ _ _ _ hb (pCode_pos s.next_player)] at h
    simp only [ubBody] at h
    rw [winnerN_encode] at h
    rcases hw : s.check_winner with _ | w
    · rw [hw] at h
      simp only [cellCode] at h
      have hzz : ((0 : Nat) != 0) = false := rfl
      rw [hzz, Bool.cond_false] at h
      by_cases ho : s.open_squares = []
      · rw [((fullB_encode s h9).mpr ho : fullB (encodeB s.board) = true),
          Bool.cond_true] at h
        rw [minimax_tie s (hcache.trans hw) ho]
        exact (tie_ble r).mp h
      · have hfb : fullB (encodeB s.board) = false := by
          cases hfb2 : fullB (encodeB s.board)
          · rfl
          · exact absurd ((fullB_encode s h9).mp hfb2) ho
        rw [hfb, Bool.cond_false, cond_pCode] at h
        rw [minimax_step s (hcache.trans hw) ho]
        have hstep : ∀ i, i ∈ s.open_squares →
            ubCheckN fuel (encodeB s.board + pCode s.next_player * 3 ^ i)
              (3 - pCode s.next_player) (pCode s.computer_player) (rCode r) = true →
            (minimax (s.with_move i)).toInt ≤ r.toInt := by
          intro i hmem hc
          obtain ⟨he, hn, hcp, h9c, hcc⟩ := with_move_encode s i h9 hmem
          refine ih (s.with_move i) r h9c hcc ?_
          rw [he, hn, hcp]
          exact hc
        by_cases hnc : s.next_player = s.computer_player
        · rw [if_pos hnc] at h ⊢
          simp only [Bool.and_eq_true] at h
          obtain ⟨⟨⟨⟨⟨⟨⟨⟨h0, h1⟩, h2⟩, h3⟩, h4⟩, h5⟩, h6⟩, h7⟩, h8⟩ := h
          refine foldl_max_le _ _ (GameResult.bot_top r).1 ?_
          intro x hx
          obtain ⟨i, hmi, rfl⟩ := List.mem_map.mp hx
          have hi9 : i < 9 := open_lt s i h9 hmi
          have hdig := (open_dig s i h9 hi9).mpr hmi
          have hget : ∀ j, ((!(dig (encodeB s.board) j == 0)) ||
              ubCheckN fuel (encodeB s.board + pCode s.next_player * 3 ^ j)
                (3 - pCode s.next_player) (pCode s.computer_player) (rCode r)) = true →
              j = i →
              (minimax (s.with_move i)).toInt ≤ r.toInt := by
            intro j hcond hj
            subst hj
            rw [Bool.or_eq_true] at hcond
            rcases hcond with hno | hc
            · rw [hdig] at hno
              cases hno
            · exact hstep j hmi hc
          interval_cases i
          exacts [hget 0 h0 rfl, hget 1 h1 rfl, hget 2 h2 rfl, hget 3 h3 rfl,
            hget 4 h4 rfl, hget 5 h5 rfl, hget 6 h6 rfl, hget 7 h7 rfl, hget 8 h8 rfl]
        · rw [if_neg hnc] at h ⊢
          simp only [Bool.or_eq_true, Bool.and_eq_true] at h
          have hone : ∀ i, ((dig (encodeB s.board) i == 0) = true) →
              ubCheckN fuel (encodeB s.board + pCode s.next_player * 3 ^ i)
                (3 - pCode s.next_player) (pCode s.computer_player) (rCode r) = true →
              i < 9 →
              ((s.open_squares.map fun m => minimax (s.with_move m)).foldl
                GameResult.min GameResult.Win).toInt ≤ r.toInt := by
            intro i hdig hc hi
            have hmem := (open_dig s i h9 hi).mp hdig
            exact le_trans (foldl_min_le_mem _ (List.mem_map_of_mem _ hmem))
              (hstep i hmem hc)
          rcases h with
            ((((((((⟨hd, hc⟩ | ⟨hd, hc⟩) | ⟨hd, hc⟩) | ⟨hd, hc⟩) | ⟨hd, hc⟩) |
              ⟨hd, hc⟩) | ⟨hd, hc⟩) | ⟨hd, hc⟩) | ⟨hd, hc⟩)
          all_goals exact hone _ hd hc (by norm_num)
    · rw [hw] at h
      rw [pCode_bne_zero w, Bool.cond_true] at h
      have hcs : cellCode (some w) = pCode w := rfl
      rw [hcs, winLoss_code] at h
      rw [minimax_winner s w (hcache.trans hw)]
      exact (ble_rCode_le _ _).mp h

/-- Combine both checkers into an exact minimax value. -/
theorem minimax_eq_of_checkN (s : GameState) (r : GameResult)
    (h9 : s.board.length = 9) (hcache : s.winner = s.check_winner)
    (hlb : lbCheckN 10 (encodeB s.board) (pCode s.next_player)
      (pCode s.computer_player) (rCode r) = true)
    (hub : ubCheckN 10 (encodeB s.board) (pCode s.next_player)
      (pCode s.computer_player) (rCode r) = true) :
    minimax s = r := by
  have h1 := lbCheckN_sound 10 s r h9 hcache hlb
  have h2 := ubCheckN_sound 10 s r h9 hcache hub
  exact GameResult.toInt_inj _ _ (le_antisymm h2 h1)

/-- `GameResult.max` of equal arguments. -/
theorem GameResult.max_self : ∀ a : GameResult, a.max a = a := by decide

/-- `Loss` is a left identity of `GameResult.max`. -/
theorem GameResult.loss_max : ∀ a : GameResult, GameResult.Loss.max a = a := by decide

/-- Strict comparison of discriminants is total on distinct results. -/
theorem GameResult.lt_of_not_lt : ∀ a b : GameResult,
    ¬(a.toInt < b.toInt) → b ≠ a → b.toInt < a.toInt := by decide

/-- A max-fold is the seed or one of the members. -/
theorem foldl_max_mem : ∀ (l : List GameResult) (a : GameResult),
    l.foldl GameResult.max a = a ∨ l.foldl GameResult.max a ∈ l
  | [], a => Or.inl rfl
  | b :: t, a => by
    rw [List.foldl_cons]
    rcases foldl_max_mem t (GameResult.max a b) with h | h
    · rcases GameResult.max_choice a b with hm | hm
      · left; rw [h, hm]
      · right; rw [h, hm]; exact List.mem_cons_self _ _
    · right; exact List.mem_cons_of_mem _ h

/-- A max-fold over a non-empty list with seed `Loss` is attained by a
member. -/
theorem foldl_max_attained : ∀ (l : List GameResult), l ≠ [] →
    l.foldl GameResult.max GameResult.Loss ∈ l
  | [], h => absurd rfl h
  | v :: t, _ => by
    rw [List.foldl_cons, GameResult.loss_max]
    rcases foldl_max_mem t v with h | h
    · rw [h]; exact List.mem_cons_self _ _
    · exact List.mem_cons_of_mem _ h

/-- Characterization of the `get_best_computer_moves` loop: the running
best is the max-fold of the values seen so far, and the accumulated list is
the previous accumulator (kept only if no strict improvement happened)
followed by the processed moves attaining the final best. -/
theorem gbFold_spec (f : Nat → GameResult) :
    ∀ (l : List Nat) (M : GameResult) (acc : List Nat),
      l.foldl (gbStep f) (M, acc)
        = (l.foldl (fun b m => GameResult.max b (f m)) M,
           (if l.foldl (fun b m => GameResult.max b (f m)) M = M then acc else [])
             ++ l.filter
                 (fun m => f m == l.foldl (fun b m => GameResult.max b (f m)) M)) := by
  intro l
  induction l with
  | nil => intro M acc; simp
  | cons m t ih =>
    intro M acc
    simp only [List.foldl_cons]
    by_cases hlt : M.toInt < (f m).toInt
    · have hstep : gbStep f (M, acc) m = (f m, [m]) := by
        rw [gbStep]
        simp only [if_pos hlt]
      have hmax : GameResult.max M (f m) = f m := by
        rw [GameResult.max, if_pos hlt]
      have hne : t.foldl (fun b m => GameResult.max b (f m)) (f m) ≠ M := by
        intro heq2
        have hfl := le_foldl_max (t.map f) (f m)
        rw [List.foldl_map, heq2] at hfl
        omega
      rw [hstep]
      simp only [hmax]
      rw [ih, List.filter_cons]
      simp only [beq_iff_eq]
      rw [if_neg hne]
      by_cases hv : f m = t.foldl (fun b m => GameResult.max b (f m)) (f m)
      · rw [if_pos hv.symm, if_pos hv]
        rfl
      · rw [if_neg (fun hh => hv hh.symm), if_neg hv]
    · by_cases heq : f m = M
      · have hstep : gbStep f (M, acc) m = (M, acc ++ [m]) := by
          rw [gbStep]
          simp only [if_neg hlt, if_pos heq]
        have hmax : GameResult.max M (f m) = M := by
          rw [heq, GameResult.max_self]
        rw [hstep]
        simp only [hmax]
        rw [ih, List.filter_cons]
        simp only [beq_iff_eq]
        by_cases hMf : t.foldl (fun b m => GameResult.max b (f m)) M = M
        · rw [if_pos hMf, if_pos hMf, if_pos (heq.trans hMf.symm), List.append_assoc]
          rfl
        · rw [if_neg hMf, if_neg hMf,
            if_neg (fun hh => hMf ((heq.symm.trans hh).symm))]
      · have hstep : gbStep f (M, acc) m = (M, acc) := by
          rw [gbStep]
          simp only [if_neg hlt, if_neg heq]
        have hmax : GameResult.max M (f m) = M := by
          rw [GameResult.max, if_neg hlt]
        have hlt2 : (f m).toInt < M.toInt := GameResult.lt_of_not_lt M (f m) hlt heq
        have hne : ¬ f m = t.foldl (fun b m => GameResult.max b (f m)) M := by
          intro hh
          have hfl := le_foldl_max (t.map f) M
          rw [List.foldl_map, ← hh] at hfl
          omega
        rw [hstep]
        simp only [hmax]
        rw [ih, List.filter_cons]
        simp only [beq_iff_eq]
        rw [if_neg hne]

/-- The best-move list is exactly the open squares whose child value is the
best achievable value. -/
theorem get_best_eq_filter (s : GameState) :
    s.get_best_computer_moves
      = s.open_squares.filter (fun m => minimax (s.with_move m) == bestValue s) := by
  rw [GameState.get_best_computer_moves, gbFold_spec]
  have hbv : bestValue s
      = s.open_squares.foldl
          (fun b m => GameResult.max b (minimax (s.with_move m))) GameResult.Loss := by
    rw [bestValue, List.foldl_map]
  rw [← hbv]
  by_cases h : bestValue s = GameResult.Loss
  · rw [if_pos h]
    rfl
  · rw [if_neg h]
    rfl

/-- For a state with an open square, the best value is attained by some open
square. -/
theorem bestValue_attained (s : GameState) (ho : s.open_squares ≠ []) :
    ∃ m ∈ s.open_squares, minimax (s.with_move m) = bestValue s := by
  have hne : s.open_squares.map (fun m => minimax (s.with_move m)) ≠ [] := by
    intro hh
    exact ho (List.map_eq_nil.mp hh)
  have := foldl_max_attained _ hne
  rw [← bestValue] at this
  obtain ⟨m, hm, hv⟩ := List.mem_map.mp this
  exact ⟨m, hm, hv⟩

/-- The best-move list of a state with an open square is non-empty, and its
members are exactly the open squares attaining the best value. -/
theorem get_best_spec (s : GameState) (ho : s.open_squares ≠ []) :
    s.get_best_computer_moves ≠ [] ∧
    ∀ m, m ∈ s.get_best_computer_moves
      ↔ m ∈ s.open_squares ∧ minimax (s.with_move m) = bestValue s := by
  constructor
  · obtain ⟨m, hm, hv⟩ := bestValue_attained s ho
    have : m ∈ s.get_best_computer_moves := by
      rw [get_best_eq_filter, List.mem_filter]
      exact ⟨hm, beq_iff_eq.mpr hv⟩
    exact List.ne_nil_of_mem this
  · intro m
    rw [get_best_eq_filter, List.mem_filter]
    constructor
    · rintro ⟨h1, h2⟩
      exact ⟨h1, beq_iff_eq.mp h2⟩
    · rintro ⟨h1, h2⟩
      exact ⟨h1, beq_iff_eq.mpr h2⟩

/-- `firstSome` returns `some` exactly when its first argument does, or its
first argument is `none` and its second does. -/
theorem firstSome_eq_some (a b : Option Player) (p : Player) :
    firstSome a b = some p ↔ a = some p ∨ (a = none ∧ b = some p) := by
  rcases a <;> simp [firstSome]

/-- `firstSome` is `none` exactly when both arguments are. -/
theorem firstSome_eq_none (a b : Option Player) :
    firstSome a b = none ↔ a = none ∧ b = none := by
  rcases a <;> simp [firstSome]

/-- A line has a winner exactly when all three cells carry that player's
mark. -/
theorem glw_eq_some : ∀ a b c : Option Player, ∀ p : Player,
    get_line_winner a b c = some p ↔ a = some p ∧ b = some p ∧ c = some p := by decide

/-- A player's three marks on a line always win that line. -/
theorem glw_full : ∀ p : Player,
    get_line_winner (some p) (some p) (some p) = some p := by decide

/-- Whenever `check_winner` names a winner, that player owns a completed
line. -/
theorem check_winner_hasLine (s : GameState) (p : Player)
    (h : s.check_winner = some p) : hasLine s p := by
  rw [GameState.check_winner] at h
  rw [firstSome_eq_some] at h
  rcases h with h | ⟨_, h⟩
  · exact ⟨(0, 1, 2), by decide, (glw_eq_some _ _ _ p).mp h⟩
  rw [firstSome_eq_some] at h
  rcases h with h | ⟨_, h⟩
  · exact ⟨(0, 3, 6), by decide, (glw_eq_some _ _ _ p).mp h⟩
  rw [firstSome_eq_some] at h
  rcases h with h | ⟨_, h⟩
  · exact ⟨(3, 4, 5), by decide, (glw_eq_some _ _ _ p).mp h⟩
  rw [firstSome_eq_some] at h
  rcases h with h | ⟨_, h⟩
  · exact ⟨(1, 4, 7), by decide, (glw_eq_some _ _ _ p).mp h⟩
  rw [firstSome_eq_some] at h
  rcases h with h | ⟨_, h⟩
  · exact ⟨(6, 7, 8), by decide, (glw_eq_some _ _ _ p).mp h⟩
  rw [firstSome_eq_some] at h
  rcases h with h | ⟨_, h⟩
  · exact ⟨(2, 5, 8), by decide, (glw_eq_some _ _ _ p).mp h⟩
  rw [firstSome_eq_some] at h
  rcases h with h | ⟨_, h⟩
  · exact ⟨(0, 4, 8), by decide, (glw_eq_some _ _ _ p).mp h⟩
  · exact ⟨(2, 4, 6), by decide, (glw_eq_some _ _ _ p).mp h⟩

/-- Whenever some player owns a completed line, `check_winner` finds some
winner. -/
theorem hasLine_isSome (s : GameState) (p : Player) (h : hasLine s p) :
    (s.check_winner).isSome = true := by
  rcases hcw : s.check_winner with _ | q
  · exfalso
    rw [GameState.check_winner] at hcw
    rw [firstSome_eq_none] at hcw
    obtain ⟨g1, hcw⟩ := hcw
    rw [firstSome_eq_none] at hcw
    obtain ⟨g2, hcw⟩ := hcw
    rw [firstSome_eq_none] at hcw
    obtain ⟨g3, hcw⟩ := hcw
    rw [firstSome_eq_none] at hcw
    obtain ⟨g4, hcw⟩ := hcw
    rw [firstSome_eq_none] at hcw
    obtain ⟨g5, hcw⟩ := hcw
    rw [firstSome_eq_none] at hcw
    obtain ⟨g6, hcw⟩ := hcw
    rw [firstSome_eq_none] at hcw
    obtain ⟨g7, g8⟩ := hcw
    obtain ⟨t, hmem, h1, h2, h3⟩ := h
    fin_cases hmem <;> dsimp at h1 h2 h3 <;>
      simp_all [glw_full p, h1, h2, h3]
  · rfl

/-- When no two distinct players both own completed lines, `check_winner`
names exactly the line owners. -/
theorem check_winner_iff (s : GameState)
    (hnb : ¬(hasLine s Player.X ∧ hasLine s Player.O)) (p : Player) :
    s.check_winner = some p ↔ hasLine s p := by
  constructor
  · exact check_winner_hasLine s p
  · intro h
    obtain ⟨q, hq⟩ := Option.isSome_iff_exists.mp (hasLine_isSome s p h)
    have hlq := check_winner_hasLine s q hq
    by_cases hpq : q = p
    · rw [← hpq]
      exact hq
    · exfalso
      cases p <;> cases q <;>
        first
          | exact hpq rfl
          | exact hnb ⟨h, hlq⟩
          | exact hnb ⟨hlq, h⟩

/-- One occurrence at a known index gives a count of at least one. -/
theorem one_in_count (l : List (Option Player)) (p : Player) (i : Nat)
    (h : l[i]? = some (some p)) : 1 ≤ l.countP (fun c => c == some p) := by
  rw [Nat.succ_le, List.countP_pos_iff]
  exact ⟨some p, List.getElem?_mem h, by simp⟩

/-- Two occurrences at distinct indices give a count of at least two. -/
theorem two_in_count : ∀ (l : List (Option Player)) (p : Player) (i j : Nat), i < j →
    l[i]? = some (some p) → l[j]? = some (some p) →
    2 ≤ l.countP (fun c => c == some p)
  | [], p, i, j, hij, hi, hj => by simp at hi
  | c :: t, p, 0, j, hij, hi, hj => by
    obtain ⟨j1, rfl⟩ : ∃ j1, j = j1 + 1 := ⟨j - 1, by omega⟩
    simp only [List.getElem?_cons_zero, Option.some.injEq] at hi
    subst hi
    rw [List.getElem?_cons_succ] at hj
    have := one_in_count t p j1 hj
    simp only [List.countP_cons]
    simp only [beq_self_eq_true, if_pos]
    omega
  | c :: t, p, i + 1, j, hij, hi, hj => by
    obtain ⟨j1, rfl⟩ : ∃ j1, j = j1 + 1 := ⟨j - 1, by omega⟩
    rw [List.getElem?_cons_succ] at hi hj
    have := two_in_count t p i j1 (by omega) hi hj
    simp only [List.countP_cons]
    omega

/-- Three occurrences at pairwise distinct indices give a count of at least
three. -/
theorem three_in_count : ∀ (l : List (Option Player)) (p : Player) (i j k : Nat),
    i < j → j < k →
    l[i]? = some (some p) → l[j]? = some (some p) → l[k]? = some (some p) →
    3 ≤ l.countP (fun c => c == some p)
  | [], p, i, j, k, hij, hjk, hi, hj, hk => by simp at hi
  | c :: t, p, 0, j, k, hij, hjk, hi, hj, hk => by
    obtain ⟨j1, rfl⟩ : ∃ j1, j = j1 + 1 := ⟨j - 1, by omega⟩
    obtain ⟨k1, rfl⟩ : ∃ k1, k = k1 + 1 := ⟨k - 1, by omega⟩
    simp only [List.getElem?_cons_zero, Option.some.injEq] at hi
    subst hi
    rw [List.getElem?_cons_succ] at hj hk
    have := two_in_count t p j1 k1 (by omega) hj hk
    simp only [List.countP_cons]
    simp only [beq_self_eq_true, if_pos]
    omega
  | c :: t, p, i + 1, j, k, hij, hjk, hi, hj, hk => by
    obtain ⟨j1, rfl⟩ : ∃ j1, j = j1 + 1 := ⟨j - 1, by omega⟩
    obtain ⟨k1, rfl⟩ : ∃ k1, k = k1 + 1 := ⟨k - 1, by omega⟩
    rw [List.getElem?_cons_succ] at hi hj hk
    have := three_in_count t p i j1 k1 (by omega) (by omega) hi hj hk
    simp only [List.countP_cons]
    omega

/-- A non-default `cell` lookup identifies the optional-lookup value. -/
theorem cell_getElem? (s : GameState) (i : Nat) (p : Player)
    (h : s.cell i = some p) : s.board[i]? = some (some p) := by
  rw [GameState.cell, List.getD_eq_getElem?_getD] at h
  rcases hg : s.board[i]? with _ | x
  · rw [hg] at h
    cases h
  · rw [hg] at h
    rw [Option.getD_some] at h
    rw [h]

/-- A completed line needs at least three of the owner's marks on the
board. -/
theorem hasLine_count (s : GameState) (p : Player) (h : hasLine s p) :
    3 ≤ s.board.countP (fun c => c == some p) := by
  obtain ⟨t, hmem, h1, h2, h3⟩ := h
  fin_cases hmem <;>
    exact three_in_count s.board p _ _ _ (by norm_num) (by norm_num)
      (cell_getElem? s _ p h1) (cell_getElem? s _ p h2) (cell_getElem? s _ p h3)

/-- The marks of the two players exhaust the occupied cells. -/
theorem counts_board : ∀ l : List (Option Player),
    l.countP (fun c => c == some Player.X) + l.countP (fun c => c == some Player.O)
      = l.countP (fun c => c.isSome) := by
  intro l
  induction l with
  | nil => rfl
  | cons c t ih =>
    rcases c with _ | p
    · simpa [List.countP_cons] using ih
    · rcases p <;> simp [List.countP_cons] <;> omega

/-- Reachable states keep the 9-cell board. -/
theorem reach_len (s : GameState) (h : Reachable s) : s.board.length = 9 := by
  induction h with
  | init p => rfl
  | step m hs hm ih =>
    show (List.set _ _ _).length = 9
    rw [List.length_set]
    exact ih

/-- Reachable states have a cached winner that matches recomputation. -/
theorem reach_cache (s : GameState) (h : Reachable s) : s.winner = s.check_winner := by
  induction h with
  | init p => rfl
  | step m hs hm ih => exact with_move_winner _ m

/-- Alternation invariant: X has exactly as many marks as O when X is to
move, and one more when O is to move. -/
theorem reach_alt (s : GameState) (h : Reachable s) :
    s.board.countP (fun c => c == some Player.X)
      = s.board.countP (fun c => c == some Player.O)
        + (if s.next_player = Player.X then 0 else 1) := by
  induction h with
  | init p => rfl
  | step m hs hm ih =>
    rename_i t
    have hget := (mem_open_squares t m).mp hm
    have hX := countP_set_of_none (q := fun c => c == some Player.X) rfl
      t.board m t.next_player hget
    have hO := countP_set_of_none (q := fun c => c == some Player.O) rfl
      t.board m t.next_player hget
    show (t.board.set m (some t.next_player)).countP _
      = (t.board.set m (some t.next_player)).countP _
        + (if t.next_player.opponent = Player.X then 0 else 1)
    rcases hn : t.next_player
    · rw [hn] at hX hO
      have hX2 : (t.board.set m (some Player.X)).countP (fun c => c == some Player.X)
          = t.board.countP (fun c => c == some Player.X) + 1 := by
        rw [hX]; simp
      have hO2 : (t.board.set m (some Player.X)).countP (fun c => c == some Player.O)
          = t.board.countP (fun c => c == some Player.O) := by
        rw [hO]; simp
      rw [hX2, hO2, show Player.X.opponent = Player.O from rfl,
        if_neg (by decide : ¬(Player.O = Player.X))]
      rw [hn] at ih
      simp at ih
      omega
    · rw [hn] at hX hO
      have hX2 : (t.board.set m (some Player.O)).countP (fun c => c == some Player.X)
          = t.board.countP (fun c => c == some Player.X) := by
        rw [hX]; simp
      have hO2 : (t.board.set m (some Player.O)).countP (fun c => c == some Player.O)
          = t.board.countP (fun c => c == some Player.O) + 1 := by
        rw [hO]; simp
      rw [hX2, hO2, show Player.O.opponent = Player.X from rfl, if_pos rfl]
      rw [hn] at ih
      simp at ih
      omega

/-- Applying a move on an open square adds one occupied cell. -/
theorem occupied_with_move (s : GameState) (m : Nat) (hm : m ∈ s.open_squares) :
    occupied_count (s.with_move m) = occupied_count s + 1 := by
  have hget := (mem_open_squares s m).mp hm
  have h := countP_set_of_none (q := fun c => c.isSome) rfl s.board m s.next_player hget
  rw [occupied_count, occupied_count, with_move_board, h]
  rfl

/-- No reachable position with fewer than five occupied squares has a
winner: each player has at most two marks then, and a line needs three. -/
theorem no_early_winner (s : GameState) (h : Reachable s)
    (hc : occupied_count s < 5) : s.check_winner = none := by
  rcases hw : s.check_winner with _ | p
  · rfl
  · exfalso
    have hline := check_winner_hasLine s p hw
    have h3 := hasLine_count s p hline
    have halt := reach_alt s h
    have hsum := counts_board s.board
    rw [occupied_count] at hc
    rcases hn : s.next_player <;> rw [hn] at halt <;> simp at halt <;>
      rcases p <;> omega

/-- Frame conditions of a move on an open square: only the chosen cell
changes (to the mover's mark), the next player flips, the computer player is
kept, the winner is recomputed, and the chosen square is no longer open in
the new state while still open in the unchanged original. -/
theorem with_move_frame (s : GameState) (i : Nat) (h : i ∈ s.open_squares) :
    (s.with_move i).board.getD i none = some s.next_player ∧
    (∀ j, j ≠ i → (s.with_move i).board.getD j none = s.board.getD j none) ∧
    (s.with_move i).next_player = s.next_player.opponent ∧
    (s.with_move i).computer_player = s.computer_player ∧
    (s.with_move i).winner = (s.with_move i).check_winner ∧
    i ∉ (s.with_move i).open_squares ∧
    i ∈ s.open_squares := by
  have hget := (mem_open_squares s i).mp h
  have hlen : i < s.board.length := by
    by_contra hge
    rw [List.getElem?_eq_none (by omega)] at hget
    cases hget
  refine ⟨?_, ?_, with_move_next s i, with_move_comp s i, with_move_winner s i, ?_, h⟩
  · rw [with_move_board, List.getD_eq_getElem?_getD,
      List.getElem?_set_self hlen]
    rfl
  · intro j hj
    rw [with_move_board, List.getD_eq_getElem?_getD,
      List.getElem?_set_ne (fun hh => hj hh.symm), ← List.getD_eq_getElem?_getD]
  · intro hmem
    have := (mem_open_squares _ i).mp hmem
    rw [with_move_board, List.getElem?_set_self hlen] at this
    cases this

set_option maxRecDepth 40000 in
set_option maxHeartbeats 16000000 in
/-- Opening at square 0 (a corner) evaluates to a draw. -/
theorem childX0 : minimax ((GameState.new Player.X).with_move 0) = GameResult.Tie :=
  minimax_eq_of_checkN _ _ rfl rfl (by decide) (by decide)

set_option maxRecDepth 40000 in
set_option maxHeartbeats 16000000 in
/-- Opening at square 1 (an edge midpoint) also evaluates to a draw. -/
theorem childX1 : minimax ((GameState.new Player.X).with_move 1) = GameResult.Tie :=
  minimax_eq_of_checkN _ _ rfl rfl (by decide) (by decide)

set_option maxRecDepth 40000 in
set_option maxHeartbeats 16000000 in
/-- Opening at square 2 evaluates to a draw. -/
theorem childX2 : minimax ((GameState.new Player.X).with_move 2) = GameResult.Tie :=
  minimax_eq_of_checkN _ _ rfl rfl (by decide) (by decide)

set_option maxRecDepth 40000 in
set_option maxHeartbeats 16000000 in
/-- Opening at square 3 evaluates to a draw. -/
theorem childX3 : minimax ((GameState.new Player.X).with_move 3) = GameResult.Tie :=
  minimax_eq_of_checkN _ _ rfl rfl (by decide) (by decide)

set_option maxRecDepth 40000 in
set_option maxHeartbeats 16000000 in
/-- Opening at square 4 (the center) evaluates to a draw. -/
theorem childX4 : minimax ((GameState.new Player.X).with_move 4) = GameResult.Tie :=
  minimax_eq_of_checkN _ _ rfl rfl (by decide) (by decide)

set_option maxRecDepth 40000 in
set_option maxHeartbeats 16000000 in
/-- Opening at square 5 evaluates to a draw. -/
theorem childX5 : minimax ((GameState.new Player.X).with_move 5) = GameResult.Tie :=
  minimax_eq_of_checkN _ _ rfl rfl (by decide) (by decide)

set_option maxRecDepth 40000 in
set_option maxHeartbeats 16000000 in
/-- Opening at square 6 evaluates to a draw. -/
theorem childX6 : minimax ((GameState.new Player.X).with_move 6) = GameResult.Tie :=
  minimax_eq_of_checkN _ _ rfl rfl (by decide) (by decide)

set_option maxRecDepth 40000 in
set_option maxHeartbeats 16000000 in
/-- Opening at square 7 evaluates to a draw. -/
theorem childX7 : minimax ((GameState.new Player.X).with_move 7) = GameResult.Tie :=
  minimax_eq_of_checkN _ _ rfl rfl (by decide) (by decide)

set_option maxRecDepth 40000 in
set_option maxHeartbeats 16000000 in
/-- Opening at square 8 evaluates to a draw. -/
theorem childX8 : minimax ((GameState.new Player.X).with_move 8) = GameResult.Tie :=
  minimax_eq_of_checkN _ _ rfl rfl (by decide) (by decide)

/-- The open squares of the initial board are all nine squares. -/
theorem open_init : (GameState.new Player.X).open_squares = [0, 1, 2, 3, 4, 5, 6, 7, 8] := rfl

/-- Evaluating the initial state for computer player X yields a tie. -/
theorem minimax_newX : minimax (GameState.new Player.X) = GameResult.Tie := by
  rw [minimax_step _ rfl (by decide),
    if_pos (show (GameState.new Player.X).next_player
      = (GameState.new Player.X).computer_player from rfl), open_init]
  simp only [List.map_cons, List.map_nil, childX0, childX1, childX2, childX3,
    childX4, childX5, childX6, childX7, childX8]
  decide

set_option maxRecDepth 40000 in
set_option maxHeartbeats 16000000 in
/-- Evaluating the initial state for computer player O yields a tie. -/
theorem minimax_newO : minimax (GameState.new Player.O) = GameResult.Tie :=
  minimax_eq_of_checkN _ _ rfl rfl (by decide) (by decide)

/-- The best value among the nine opening moves is a tie. -/
theorem bestValue_init : bestValue (GameState.new Player.X) = GameResult.Tie := by
  rw [bestValue, open_init]
  simp only [List.map_cons, List.map_nil, childX0, childX1, childX2, childX3,
    childX4, childX5, childX6, childX7, childX8]
  decide

/-- From the empty board every opening move is optimal: the best-move list
contains all nine squares. -/
theorem get_best_init :
    (GameState.new Player.X).get_best_computer_moves = [0, 1, 2, 3, 4, 5, 6, 7, 8] := by
  rw [get_best_eq_filter, bestValue_init, open_init]
  simp only [List.filter_cons, List.filter_nil, childX0, childX1, childX2, childX3,
    childX4, childX5, childX6, childX7, childX8]
  decide

/-- Claim C1: the search evaluation `minimax` (perspective player =
`computer_player`) satisfies the specification's definition on every state:
a cached winner returns Win exactly when it is the computer player and Loss
otherwise; else an empty open-square list returns Tie; otherwise the value
is the max over all children (one per open square) when the computer moves
next and the min over all children otherwise. -/
theorem minimax_satisfies_spec (s : GameState) :
    (∀ w, s.winner = some w →
      minimax s = if w = s.computer_player then GameResult.Win else GameResult.Loss) ∧
    (s.winner = none → s.open_squares = [] → minimax s = GameResult.Tie) ∧
    (s.winner = none → s.open_squares ≠ [] →
      minimax s =
        if s.next_player = s.computer_player then
          (s.open_squares.map (fun m => minimax (s.with_move m))).foldl
            GameResult.max GameResult.Loss
        else
          (s.open_squares.map (fun m => minimax (s.with_move m))).foldl
            GameResult.min GameResult.Win) :=
  ⟨fun w h => minimax_winner s w h, minimax_tie s, minimax_step s⟩

/-- Claim C1, witness: the three cases of the specification instantiated at
concrete states (a won position, a drawn full board, and a mid-game
position). -/
theorem minimax_satisfies_spec_witness :
    ((((((GameState.new Player.X).with_move 0).with_move 3).with_move 1).with_move 4).with_move 2).winner = some Player.X ∧
    minimax ((((((GameState.new Player.X).with_move 0).with_move 3).with_move 1).with_move 4).with_move 2)
      = (if Player.X = ((((((GameState.new Player.X).with_move 0).with_move 3).with_move 1).with_move 4).with_move 2).computer_player then GameResult.Win else GameResult.Loss) ∧
    minimax ((((((((((GameState.new Player.X).with_move 0).with_move 1).with_move 2).with_move 4).with_move 3).with_move 5).with_move 7).with_move 6).with_move 8) = GameResult.Tie ∧
    minimax ((GameState.new Player.X).with_move 0)
      = (if ((GameState.new Player.X).with_move 0).next_player = ((GameState.new Player.X).with_move 0).computer_player then
          ((((GameState.new Player.X).with_move 0).open_squares.map (fun m => minimax (((GameState.new Player.X).with_move 0).with_move m))).foldl
            GameResult.max GameResult.Loss)
        else
          ((((GameState.new Player.X).with_move 0).open_squares.map (fun m => minimax (((GameState.new Player.X).with_move 0).with_move m))).foldl
            GameResult.min GameResult.Win)) :=
  ⟨by decide,
   (minimax_satisfies_spec _).1 Player.X (by decide),
   (minimax_satisfies_spec _).2.1 (by decide) (by decide),
   (minimax_satisfies_spec _).2.2 (by decide) (by decide)⟩

/-- Claim C2: for every non-terminal state with at least one open square,
`get_best_computer_moves` is non-empty and contains exactly the open squares
whose child state evaluates to the maximum achievable result (`bestValue`,
the max of `minimax` over all children): all tying squares included, none
omitted. -/
theorem best_moves_exact (s : GameState) (hw : s.winner = none)
    (ho : s.open_squares ≠ []) :
    s.get_best_computer_moves ≠ [] ∧
    ∀ m, m ∈ s.get_best_computer_moves
      ↔ m ∈ s.open_squares ∧ minimax (s.with_move m) = bestValue s :=
  get_best_spec s ho

/-- Claim C2, witness: the best-move contract instantiated at a concrete
mid-game position with three open squares. -/
theorem best_moves_exact_witness :
    (((((((GameState.new Player.X).with_move 0).with_move 1).with_move 4).with_move 3).with_move 5).with_move 8).winner = none ∧
    (((((((GameState.new Player.X).with_move 0).with_move 1).with_move 4).with_move 3).with_move 5).with_move 8).open_squares ≠ [] ∧
    ((((((((GameState.new Player.X).with_move 0).with_move 1).with_move 4).with_move 3).with_move 5).with_move 8).get_best_computer_moves ≠ [] ∧
      ∀ m, m ∈ (((((((GameState.new Player.X).with_move 0).with_move 1).with_move 4).with_move 3).with_move 5).with_move 8).get_best_computer_moves
        ↔ m ∈ (((((((GameState.new Player.X).with_move 0).with_move 1).with_move 4).with_move 3).with_move 5).with_move 8).open_squares ∧
          minimax ((((((((GameState.new Player.X).with_move 0).with_move 1).with_move 4).with_move 3).with_move 5).with_move 8).with_move m) = bestValue (((((((GameState.new Player.X).with_move 0).with_move 1).with_move 4).with_move 3).with_move 5).with_move 8)) :=
  ⟨by decide, by decide, best_moves_exact _ (by decide) (by decide)⟩

/-- Claim C3, counterexample: on a board where both players have completed
lines (X on row 0, O on row 1), `check_winner` returns `some X` by scan
order, so "returns Some(p) iff some line is all-p" fails for p = O. -/
theorem check_winner_iff_counterexample :
    ¬(({ board := [some Player.X, some Player.X, some Player.X, some Player.O, some Player.O, some Player.O, none, none, none], next_player := Player.X, winner := none, computer_player := Player.X } : GameState).check_winner = some Player.O ↔ hasLine ({ board := [some Player.X, some Player.X, some Player.X, some Player.O, some Player.O, some Player.O, none, none, none], next_player := Player.X, winner := none, computer_player := Player.X } : GameState) Player.O) := by
  decide

/-- Claim C3 (amended): `check_winner` returns a winner exactly when some
line is monochromatic; whenever it returns `some p`, player p owns a line;
a line with an empty first cell never wins (`None == None` does not count);
and the full biconditional "Some(p) iff p owns a line" holds for every p
provided the two players do not both own completed lines (as in every
position where play stops at the first winner) — on boards where both
players own lines the scan returns only the first owner. -/
theorem check_winner_iff_lines (s : GameState) :
    (∀ p, s.check_winner = some p → hasLine s p) ∧
    ((∃ p, hasLine s p) → (s.check_winner).isSome = true) ∧
    (∀ b c : Option Player, get_line_winner none b c = none) ∧
    (¬(hasLine s Player.X ∧ hasLine s Player.O) →
      ∀ p, s.check_winner = some p ↔ hasLine s p) :=
  ⟨check_winner_hasLine s,
   fun h => h.elim (fun p hp => hasLine_isSome s p hp),
   by decide,
   check_winner_iff s⟩

/-- Claim C3, witness: the amended biconditional at a board where only X has
a completed line. -/
theorem check_winner_iff_lines_witness :
    (¬(hasLine ({ board := [some Player.X, some Player.X, some Player.X, some Player.O, some Player.O, none, none, none, none], next_player := Player.O, winner := none, computer_player := Player.X } : GameState) Player.X ∧ hasLine ({ board := [some Player.X, some Player.X, some Player.X, some Player.O, some Player.O, none, none, none, none], next_player := Player.O, winner := none, computer_player := Player.X } : GameState) Player.O)) ∧
    (({ board := [some Player.X, some Player.X, some Player.X, some Player.O, some Player.O, none, none, none, none], next_player := Player.O, winner := none, computer_player := Player.X } : GameState).check_winner = some Player.X ↔ hasLine ({ board := [some Player.X, some Player.X, some Player.X, some Player.O, some Player.O, none, none, none, none], next_player := Player.O, winner := none, computer_player := Player.X } : GameState) Player.X) ∧
    (({ board := [some Player.X, some Player.X, some Player.X, some Player.O, some Player.O, none, none, none, none], next_player := Player.O, winner := none, computer_player := Player.X } : GameState).check_winner = some Player.O ↔ hasLine ({ board := [some Player.X, some Player.X, some Player.X, some Player.O, some Player.O, none, none, none, none], next_player := Player.O, winner := none, computer_player := Player.X } : GameState) Player.O) :=
  ⟨by decide,
   (check_winner_iff_lines ({ board := [some Player.X, some Player.X, some Player.X, some Player.O, some Player.O, none, none, none, none], next_player := Player.O, winner := none, computer_player := Player.X } : GameState)).2.2.2 (by decide) Player.X,
   (check_winner_iff_lines ({ board := [some Player.X, some Player.X, some Player.X, some Player.O, some Player.O, none, none, none, none], next_player := Player.O, winner := none, computer_player := Player.X } : GameState)).2.2.2 (by decide) Player.O⟩

/-- Claim C4: evaluating the initial state (empty board, X to move) yields
Tie for both perspective players. -/
theorem minimax_init_tie :
    minimax (GameState.new Player.X) = GameResult.Tie ∧
    minimax (GameState.new Player.O) = GameResult.Tie :=
  ⟨minimax_newX, minimax_newO⟩

/-- Claim C5, counterexample: the claim excludes the edge midpoint 1 from
the best opening moves, but square 1 is in the returned list (every opening
move of tic-tac-toe draws under optimal play, so all nine squares tie for
best). -/
theorem get_best_init_counterexample :
    1 ∈ (GameState.new Player.X).get_best_computer_moves := by
  rw [get_best_init]
  decide

/-- Claim C5 (amended): on the initial empty board with perspective player
X, `get_best_computer_moves` returns all nine squares `[0, ..., 8]` — it
includes the four corners and the center, but does not exclude the edge
midpoints 1, 3, 5, 7, because every opening move evaluates to Tie. -/
theorem get_best_init_all :
    (GameState.new Player.X).get_best_computer_moves
      = [0, 1, 2, 3, 4, 5, 6, 7, 8] :=
  get_best_init

/-- Claim C6: `open_squares` lists exactly the indices of the empty cells,
in strictly increasing order, and its length plus the number of occupied
squares is 9. -/
theorem open_squares_exact (s : GameState) (h9 : s.board.length = 9) :
    (∀ i, i ∈ s.open_squares ↔ i < 9 ∧ s.board.getD i none = none) ∧
    s.open_squares.Pairwise (· < ·) ∧
    s.open_squares.length + occupied_count s = 9 := by
  refine ⟨?_, pairwise_open_squares s, ?_⟩
  · intro i
    rw [mem_open_squares]
    constructor
    · intro h
      have hlt : i < s.board.length := by
        by_contra hge
        rw [List.getElem?_eq_none (by omega)] at h
        cases h
      exact ⟨by omega, (getElem?_none_iff_getD s.board i hlt).mp h⟩
    · rintro ⟨hi, hgd⟩
      exact (getElem?_none_iff_getD s.board i (by omega)).mpr hgd
  · rw [length_open_squares, occupied_count, countNone]
    have hsplit := List.length_eq_countP_add_countP
      (p := fun c : Option Player => c.isNone) s.board
    have hcongr : s.board.countP (fun c => ¬c.isNone) = s.board.countP (fun c => c.isSome) :=
      List.countP_congr (fun x _ => by rcases x <;> simp)
    omega

/-- Claim C6, witness: the open-square contract at a concrete position. -/
theorem open_squares_exact_witness :
    ((GameState.new Player.O).with_move 4).board.length = 9 ∧
    ((∀ i, i ∈ ((GameState.new Player.O).with_move 4).open_squares
        ↔ i < 9 ∧ ((GameState.new Player.O).with_move 4).board.getD i none = none) ∧
      ((GameState.new Player.O).with_move 4).open_squares.Pairwise (· < ·) ∧
      ((GameState.new Player.O).with_move 4).open_squares.length
        + occupied_count ((GameState.new Player.O).with_move 4) = 9) :=
  ⟨by decide, open_squares_exact _ (by decide)⟩

/-- Claim C7: in every state reachable from the initial state by legal moves
on open squares, `check_winner` returns `none` while fewer than five squares
are occupied (a line needs three marks of one player, which first happens on
move five). -/
theorem reachable_no_early_winner (s : GameState) (h : Reachable s)
    (hc : occupied_count s < 5) : s.check_winner = none :=
  no_early_winner s h hc

/-- Claim C7, witness: the invariant at a concrete reachable state with four
occupied squares. -/
theorem reachable_no_early_winner_witness :
    occupied_count (((((GameState.new Player.X).apply_move 0).apply_move 4).apply_move 1).apply_move 5) < 5 ∧ (((((GameState.new Player.X).apply_move 0).apply_move 4).apply_move 1).apply_move 5).check_winner = none :=
  ⟨by decide,
   reachable_no_early_winner _
     (Reachable.step 5
       (Reachable.step 1
         (Reachable.step 4
           (Reachable.step 0 (Reachable.init Player.X) (by decide))
           (by decide))
         (by decide))
       (by decide))
     (by decide)⟩

/-- Claim C8: a move on an open square S changes exactly square S (set to
the mover's mark), flips the next player and recomputes the cached winner;
every other cell and the computer player are unchanged; `with_move` builds
that state as a fresh value, in which S is no longer open while the
unmodified original still lists S as open. -/
theorem move_frame_spec (s : GameState) (i : Nat) (h : i ∈ s.open_squares) :
    (s.apply_move i).board.getD i none = some s.next_player ∧
    (∀ j, j ≠ i → (s.apply_move i).board.getD j none = s.board.getD j none) ∧
    (s.apply_move i).next_player = s.next_player.opponent ∧
    (s.apply_move i).computer_player = s.computer_player ∧
    (s.apply_move i).winner = (s.apply_move i).check_winner ∧
    s.with_move i = s.apply_move i ∧
    i ∉ (s.with_move i).open_squares ∧
    i ∈ s.open_squares := by
  obtain ⟨h1, h2, h3, h4, h5, h6, h7⟩ := with_move_frame s i h
  exact ⟨h1, h2, h3, h4, h5, rfl, h6, h7⟩

/-- Claim C8, witness: the frame conditions for the center move on the empty
board. -/
theorem move_frame_spec_witness :
    4 ∈ (GameState.new Player.X).open_squares ∧
    (((GameState.new Player.X).apply_move 4).board.getD 4 none = some (GameState.new Player.X).next_player ∧
      (∀ j, j ≠ 4 → ((GameState.new Player.X).apply_move 4).board.getD j none = (GameState.new Player.X).board.getD j none) ∧
      ((GameState.new Player.X).apply_move 4).next_player = (GameState.new Player.X).next_player.opponent ∧
      ((GameState.new Player.X).apply_move 4).computer_player = (GameState.new Player.X).computer_player ∧
      ((GameState.new Player.X).apply_move 4).winner = ((GameState.new Player.X).apply_move 4).check_winner ∧
      (GameState.new Player.X).with_move 4 = (GameState.new Player.X).apply_move 4 ∧
      4 ∉ ((GameState.new Player.X).with_move 4).open_squares ∧
      4 ∈ (GameState.new Player.X).open_squares) :=
  ⟨by decide, move_frame_spec (GameState.new Player.X) 4 (by decide)⟩

/-- Claim C9: for every non-terminal state with an open square and every
value of the random draw below the length of the best-move list, the chosen
square is a member of `get_best_computer_moves` — the indexing is in bounds
and randomness never leaves the optimal set. -/
theorem random_move_in_best (s : GameState) (r : Nat) (hw : s.winner = none)
    (ho : s.open_squares ≠ []) (hr : r < s.get_best_computer_moves.length) :
    s.get_random_computer_move r ∈ s.get_best_computer_moves := by
  rw [GameState.get_random_computer_move, List.getD_eq_getElem?_getD,
    List.getElem?_eq_getElem hr]
  exact List.getElem_mem hr

/-- Claim C9, witness: a concrete draw at a mid-game position. -/
theorem random_move_in_best_witness :
    (((((((GameState.new Player.X).with_move 0).with_move 1).with_move 4).with_move 3).with_move 5).with_move 8).winner = none ∧
    (((((((GameState.new Player.X).with_move 0).with_move 1).with_move 4).with_move 3).with_move 5).with_move 8).open_squares ≠ [] ∧
    0 < (((((((GameState.new Player.X).with_move 0).with_move 1).with_move 4).with_move 3).with_move 5).with_move 8).get_best_computer_moves.length ∧
    (((((((GameState.new Player.X).with_move 0).with_move 1).with_move 4).with_move 3).with_move 5).with_move 8).get_random_computer_move 0 ∈ (((((((GameState.new Player.X).with_move 0).with_move 1).with_move 4).with_move 3).with_move 5).with_move 8).get_best_computer_moves :=
  ⟨by decide, by decide, by decide,
   random_move_in_best (((((((GameState.new Player.X).with_move 0).with_move 1).with_move 4).with_move 3).with_move 5).with_move 8) 0 (by decide) (by decide) (by decide)⟩

/-- Claim C10: on every state reachable from `GameState::new` through
`apply_move`, the cached `winner` field equals `check_winner` recomputed on
the current board (`new` starts with `none`, matching the empty board, and
`apply_move` recomputes the cache); hence the minimax base case, which reads
the cache, agrees with `check_winner`. -/
theorem cached_winner_invariant (s : GameState) (h : Reachable s) :
    s.winner = s.check_winner ∧
    (∀ w, s.winner = some w →
      minimax s = if w = s.computer_player then GameResult.Win else GameResult.Loss) :=
  ⟨reach_cache s h, fun w hw => minimax_winner s w hw⟩

/-- Claim C10, witness: the cache invariant at a concrete reachable state. -/
theorem cached_winner_invariant_witness :
    ((GameState.new Player.O).apply_move 3).winner = ((GameState.new Player.O).apply_move 3).check_winner :=
  (cached_winner_invariant _
    (Reachable.step 3 (Reachable.init Player.O) (by decide))).1
